import Mathlib

/-!
# Verification of the piece-selection and layout core of `support.py`

This file gives a shallow embedding of the optimization engine of the
repository: the four piece-selection strategies
(`optimize_dp_max_fill_large_priority`, `optimize_dp_max_fill_min_pieces`,
`optimize_dp_max_fill_max_pieces`, `optimize_greedy_largest_first`) and the
layout routine `calculate_single_strategy_layout`, together with theorems
about them.

Embedding conventions:
* Python `int` capacities are embedded as `Int`; piece lengths are `Nat`
  (the catalog of the data model consists of positive integers).
* The Python float-`inf` piece counter in the min-pieces strategy is
  embedded as `Option Nat` with `none` playing the role of `inf`
  (`inf + 1 = inf`, `c < inf` true for finite `c`, `inf < x` false).
* The mutable DP arrays are embedded as lists built index by index, so
  that every cell reads exactly the cells the Python code reads.
* Real-valued layout arithmetic (Python floats) is idealized as exact
  rational arithmetic over `ℚ`.
* A Python `for`/`while` loop with a non-positive piece length would
  either be a no-op (DP loops, length 0) or fail to terminate (greedy);
  the embedding guards each loop body with `0 < p`, which is observably
  identical for the positive catalogs of the data model.
-/

namespace Support

/-- descending sort, the embedding of Python `sorted(·, reverse=True)`. -/
def sortDesc (l : List Nat) : List Nat := l.insertionSort (· ≥ ·)

/-- `sorted(list(set(piece_types)), reverse=True)`: the distinct catalog
values in descending order. -/
def sortedPieceTypes (piece_types : List Nat) : List Nat :=
  sortDesc piece_types.dedup

/-- `sorted(list(set(piece_types)))`: the distinct catalog values in
ascending order (used by the max-pieces strategy). -/
def sortedPieceTypesAsc (piece_types : List Nat) : List Nat :=
  piece_types.dedup.insertionSort (· ≤ ·)

/-! ## Strategy 2: `optimize_dp_max_fill_large_priority`

`dp_value`/`dp_combination` cells are pairs `(value, combination)`.
Each catalog piece performs one in-place ascending pass over the array;
a pass is embedded as the construction of the new array cell by cell,
each cell reading the previous cell of the *new* array at `i - p`
(already rewritten this pass) and the *old* value at `i`, exactly as the
in-place Python update does. -/

/-- One cell of a `large_priority` pass for piece `p`:
`if dp_value[i - p] + p > dp_value[i]: update`. -/
def lpCell (p : Nat) (old newPrefix : List (Nat × List Nat)) (i : Nat) :
    Nat × List Nat :=
  let cur := old.getD i (0, [])
  if 0 < p ∧ p ≤ i then
    let prev := newPrefix.getD (i - p) (0, [])
    if cur.1 < prev.1 + p then (prev.1 + p, prev.2 ++ [p]) else cur
  else cur

/-- The prefix of a `large_priority` pass up to index `n`. -/
def lpPassAux (p : Nat) (old : List (Nat × List Nat)) : Nat → List (Nat × List Nat)
  | 0 => [lpCell p old [] 0]
  | n + 1 =>
    let t := lpPassAux p old n
    t ++ [lpCell p old t (n + 1)]

/-- One full pass (`for i in range(piece_len, target_capacity + 1)`)
of the `large_priority` DP for piece `p` over a table of size `cap + 1`. -/
def lpPass (cap : Nat) (old : List (Nat × List Nat)) (p : Nat) :
    List (Nat × List Nat) :=
  lpPassAux p old cap

/-- The final `large_priority` DP table after all passes. -/
def lpTable (cap : Nat) (order : List Nat) : List (Nat × List Nat) :=
  order.foldl (lpPass cap) (List.replicate (cap + 1) (0, []))

/-- `optimize_dp_max_fill_large_priority` from `support.py`. -/
def optimize_dp_max_fill_large_priority (target_capacity : Int)
    (piece_types : List Nat) : Nat × List Nat :=
  if target_capacity ≤ 0 ∨ piece_types = [] then (0, [])
  else
    let st := (lpTable target_capacity.toNat (sortedPieceTypes piece_types)).getD
      target_capacity.toNat (0, [])
    (st.1, sortDesc st.2)

/-! ## Strategy 1: `optimize_dp_max_fill_min_pieces`

State per capacity: `(sum, count, combination)` with the count a
`float('inf')`-initialized number, embedded as `Option Nat`
(`none` = `inf`). -/

/-- `float` comparison `a < b` on counts with `none` as `inf`. -/
def cntLt : Option Nat → Option Nat → Bool
  | some a, some b => a < b
  | some _, none => true
  | none, _ => false

/-- count successor with `inf + 1 = inf`. -/
def cntSucc : Option Nat → Option Nat
  | some a => some (a + 1)
  | none => none

/-- The min-pieces DP state type. -/
abbrev StMin := Nat × Option Nat × List Nat

/-- default used out of range (never actually reached inside bounds). -/
def dfltMin : StMin := (0, some 0, [])

/-- The inner-loop body of the min-pieces DP at capacity `i` for piece `p`. -/
def minStep (tbl : List StMin) (i : Nat) (cur : StMin) (p : Nat) : StMin :=
  if 0 < p ∧ p ≤ i then
    let prev := tbl.getD (i - p) dfltMin
    let cs := prev.1 + p
    let cc := cntSucc prev.2.1
    if cur.1 < cs then (cs, cc, prev.2.2 ++ [p])
    else if cs = cur.1 ∧ cntLt cc cur.2.1 then (cs, cc, prev.2.2 ++ [p])
    else cur
  else cur

/-- The min-pieces DP cell at capacity `i ≥ 1`: the inner loop over the
descending catalog starting from the initial state `(0, inf, [])`. -/
def minCell (order : List Nat) (tbl : List StMin) (i : Nat) : StMin :=
  order.foldl (minStep tbl i) (0, none, [])

/-- The min-pieces DP table up to capacity `n` (index `0` holds `(0, 0, [])`). -/
def dpMinTable (order : List Nat) : Nat → List StMin
  | 0 => [(0, some 0, [])]
  | n + 1 =>
    let t := dpMinTable order n
    t ++ [minCell order t (n + 1)]

/-- The min-pieces DP state at capacity `n`. -/
def dpMinSt (order : List Nat) (n : Nat) : StMin :=
  (dpMinTable order n).getD n dfltMin

/-- `optimize_dp_max_fill_min_pieces` from `support.py`. -/
def optimize_dp_max_fill_min_pieces (target_capacity : Int)
    (piece_types : List Nat) : Nat × List Nat :=
  if target_capacity ≤ 0 ∨ piece_types = [] then (0, [])
  else
    let st := dpMinSt (sortedPieceTypes piece_types) target_capacity.toNat
    (st.1, sortDesc st.2.2)

/-! ## Strategy 4: `optimize_dp_max_fill_max_pieces`

Same DP shape, ascending catalog, counts initialized to `0` (plain
integers in the source) and ties broken toward the higher count. -/

/-- The max-pieces DP state type. -/
abbrev StMax := Nat × Nat × List Nat

/-- default used out of range (never actually reached inside bounds). -/
def dfltMax : StMax := (0, 0, [])

/-- The inner-loop body of the max-pieces DP at capacity `i` for piece `p`. -/
def maxStep (tbl : List StMax) (i : Nat) (cur : StMax) (p : Nat) : StMax :=
  if 0 < p ∧ p ≤ i then
    let prev := tbl.getD (i - p) dfltMax
    let cs := prev.1 + p
    let cc := prev.2.1 + 1
    if cur.1 < cs then (cs, cc, prev.2.2 ++ [p])
    else if cs = cur.1 ∧ cur.2.1 < cc then (cs, cc, prev.2.2 ++ [p])
    else cur
  else cur

/-- The max-pieces DP cell at capacity `i ≥ 1`. -/
def maxCell (order : List Nat) (tbl : List StMax) (i : Nat) : StMax :=
  order.foldl (maxStep tbl i) (0, 0, [])

/-- The max-pieces DP table up to capacity `n`. -/
def dpMaxTable (order : List Nat) : Nat → List StMax
  | 0 => [(0, 0, [])]
  | n + 1 =>
    let t := dpMaxTable order n
    t ++ [maxCell order t (n + 1)]

/-- The max-pieces DP state at capacity `n`. -/
def dpMaxSt (order : List Nat) (n : Nat) : StMax :=
  (dpMaxTable order n).getD n dfltMax

/-- `optimize_dp_max_fill_max_pieces` from `support.py`. -/
def optimize_dp_max_fill_max_pieces (target_capacity : Int)
    (piece_types : List Nat) : Nat × List Nat :=
  if target_capacity ≤ 0 ∨ piece_types = [] then (0, [])
  else
    let st := dpMaxSt (sortedPieceTypesAsc piece_types) target_capacity.toNat
    (st.1, sortDesc st.2.2)

/-! ## Strategy 3: `optimize_greedy_largest_first`

For each catalog value in descending order, the `while` loop takes the
piece `remaining / p` times and leaves `remaining % p`. -/

/-- One greedy step: accumulator `(current_sum, selected_pieces, remaining)`. -/
def greedyStep (acc : Nat × List Nat × Nat) (p : Nat) : Nat × List Nat × Nat :=
  if 0 < p then
    (acc.1 + p * (acc.2.2 / p), acc.2.1 ++ List.replicate (acc.2.2 / p) p,
      acc.2.2 % p)
  else acc

/-- `optimize_greedy_largest_first` from `support.py`. -/
def optimize_greedy_largest_first (target_capacity : Int)
    (piece_types : List Nat) : Nat × List Nat :=
  if target_capacity ≤ 0 ∨ piece_types = [] then (0, [])
  else
    let r := (sortedPieceTypes piece_types).foldl greedyStep
      (0, [], target_capacity.toNat)
    (r.1, sortDesc r.2.1)

/-! ## Specification predicates -/

/-- `m` is a combination drawn (with repetition) from values satisfying `C`. -/
def ComboP (C : Nat → Prop) (m : List Nat) : Prop := ∀ x ∈ m, C x

/-- `m` is a combination drawn (with repetition) from the catalog. -/
def Combo (catalog m : List Nat) : Prop := ComboP (· ∈ catalog) m

/-- `s` is achievable as the sum of some combination from the catalog. -/
def achv (catalog : List Nat) (s : Nat) : Prop :=
  ∃ m, Combo catalog m ∧ m.sum = s

/-- `s` is the maximum achievable sum not exceeding `cap`. -/
def maxFillSpec (catalog : List Nat) (cap s : Nat) : Prop :=
  achv catalog s ∧ s ≤ cap ∧ ∀ t, achv catalog t → t ≤ cap → t ≤ s

instance (C : List Nat) (m : List Nat) : Decidable (Combo C m) :=
  (List.decidableBAll (· ∈ C) m : Decidable (∀ x ∈ m, x ∈ C))

/-- Cell invariant: value bounded by the capacity, stored combination sums
to the value and is drawn from the catalog predicate. -/
abbrev GoodMin (C : Nat → Prop) (i : Nat) (st : StMin) : Prop :=
  st.1 ≤ i ∧ st.2.2.sum = st.1 ∧ ComboP C st.2.2

/-- Cell invariant: value bounded, stored combination sums to the value,
stored count equals the stored combination's length, catalog membership. -/
abbrev GoodMax (C : Nat → Prop) (i : Nat) (st : StMax) : Prop :=
  st.1 ≤ i ∧ st.2.2.sum = st.1 ∧ st.2.2.length = st.2.1 ∧ ComboP C st.2.2

/-- `(s, c)` is dominated by the state `st` in the (sum, then count) order
used by the max-pieces tie-break. -/
abbrev lexLe (s c : Nat) (st : StMax) : Prop :=
  s < st.1 ∨ (s = st.1 ∧ c ≤ st.2.1)

/-- The value of one `large_priority` pass at index `n`. -/
def lpVal (p : Nat) (old : List (Nat × List Nat)) (n : Nat) : Nat × List Nat :=
  (lpPassAux p old n).getD n (0, [])

/-- Cell invariant for the `large_priority` table. -/
abbrev GoodLp (C : Nat → Prop) (i : Nat) (st : Nat × List Nat) : Prop :=
  st.1 ≤ i ∧ st.2.sum = st.1 ∧ ComboP C st.2

/-- Validity of a selector output for C8: sum within capacity, elements
from the catalog, sorted descending. -/
abbrev validCombo (cap : Int) (catalog : List Nat) (r : Nat × List Nat) : Prop :=
  ((r.2.sum : Int) ≤ cap) ∧ Combo catalog r.2 ∧ List.Sorted (· ≥ ·) r.2

/-! ## Layout engine (`calculate_single_strategy_layout`)

Python float arithmetic is idealized as exact `ℚ` arithmetic; the
`1e-9` reconciliation epsilon becomes the rational `1/1000000000`.
Presentation-only fields (labels, colors, summary strings) are omitted;
a plot element is its category tag plus coordinates (`stop` stands for
the Python `end` key, `length` for the `length` key). -/

/-- Category tag of a plot element. -/
inductive SegKind
  | margin
  | piece
  | limit_line
deriving DecidableEq

/-- One placed interval. -/
structure Segment where
  kind : SegKind
  start : ℚ
  stop : ℚ
  length : ℚ
deriving DecidableEq

/-- The two waste-distribution options offered by the UI
(`"균등 분배 (양 끝단)"` / `"없음 (최소 여백만)"`). -/
inductive DistMethod
  | even
  | none_min
deriving DecidableEq

/-- Result status (`"성공"` / `"오류"`). -/
inductive LayoutStatus
  | success
  | error
deriving DecidableEq

/-- The fields of the Python result dict used by the core. -/
structure LayoutResult where
  status : LayoutStatus
  internal_alpha_waste : ℚ
  final_left_margin : ℚ
  final_right_margin : ℚ
  selected_pieces_combination : List Nat
  plot_elements : List Segment
deriving DecidableEq

/-- The piece segments emitted by the placement loop, starting at `pos`. -/
def pieceSegs (pos : ℚ) : List Nat → List Segment
  | [] => []
  | p :: ps => ⟨SegKind.piece, pos, pos + p, p⟩ :: pieceSegs (pos + p) ps

/-- `calculate_single_strategy_layout` from `support.py`. -/
def calculate_single_strategy_layout
    (optimization_func : Int → List Nat → Nat × List Nat)
    (total_length : ℚ) (user_selected_piece_types : List Nat)
    (base_min_end_margin input_alpha_for_margin : ℚ)
    (internal_alpha_distribution_method : DistMethod) : LayoutResult :=
  let current_min_end_margin := base_min_end_margin + input_alpha_for_margin
  let usable_space_for_pieces := total_length - 2 * current_min_end_margin
  if usable_space_for_pieces < 0 then
    { status := LayoutStatus.error
      internal_alpha_waste := 0
      final_left_margin := 0
      final_right_margin := 0
      selected_pieces_combination := []
      plot_elements :=
        [⟨SegKind.margin, 0, current_min_end_margin, current_min_end_margin⟩,
          ⟨SegKind.margin, total_length - current_min_end_margin, total_length,
            current_min_end_margin⟩,
          ⟨SegKind.limit_line, 0, total_length, total_length⟩] }
  else
    let r := optimization_func ⌊usable_space_for_pieces⌋ user_selected_piece_types
    let sum_selected_pieces := r.1
    let selected_pieces_combination := r.2
    let internal_alpha_waste :=
      usable_space_for_pieces - (sum_selected_pieces : ℚ)
    let final_left_margin0 :=
      match internal_alpha_distribution_method with
      | DistMethod.even => current_min_end_margin + internal_alpha_waste / 2
      | DistMethod.none_min => current_min_end_margin
    let final_right_margin0 :=
      match internal_alpha_distribution_method with
      | DistMethod.even => current_min_end_margin + internal_alpha_waste / 2
      | DistMethod.none_min => current_min_end_margin + internal_alpha_waste
    let final_left_margin := max 0 final_left_margin0
    let final_right_margin1 := max 0 final_right_margin0
    let current_total_calculated :=
      final_left_margin + (sum_selected_pieces : ℚ) + final_right_margin1
    let final_right_margin :=
      if 1 / 1000000000 < |current_total_calculated - total_length| then
        max 0 (final_right_margin1 + (total_length - current_total_calculated))
      else final_right_margin1
    { status := LayoutStatus.success
      internal_alpha_waste := internal_alpha_waste
      final_left_margin := final_left_margin
      final_right_margin := final_right_margin
      selected_pieces_combination := selected_pieces_combination
      plot_elements :=
        ⟨SegKind.margin, 0, final_left_margin, final_left_margin⟩ ::
          (pieceSegs final_left_margin selected_pieces_combination ++
            [⟨SegKind.margin,
              final_left_margin + (selected_pieces_combination.sum : ℚ),
              total_length, final_right_margin⟩]) }

/-- The segments starting at `x` are contiguous: each starts where the
previous one stops. -/
def contiguousFrom : ℚ → List Segment → Prop
  | _, [] => True
  | x, s :: rest => s.start = x ∧ contiguousFrom s.stop rest

theorem ComboP_congr {C C' : Nat → Prop} (h : ∀ x, C x ↔ C' x) {m : List Nat} :
    ComboP C m → ComboP C' m := fun hm x hx => (h x).mp (hm x hx)

/-! ## Sorting lemmas -/

theorem sortDesc_perm (l : List Nat) : (sortDesc l).Perm l :=
  List.perm_insertionSort _ l

theorem mem_sortDesc {x : Nat} {l : List Nat} : x ∈ sortDesc l ↔ x ∈ l :=
  (sortDesc_perm l).mem_iff

theorem sortDesc_sum (l : List Nat) : (sortDesc l).sum = l.sum :=
  (sortDesc_perm l).sum_eq

theorem sortDesc_length (l : List Nat) : (sortDesc l).length = l.length :=
  (sortDesc_perm l).length_eq

theorem sortDesc_sorted (l : List Nat) : List.Sorted (· ≥ ·) (sortDesc l) :=
  List.sorted_insertionSort _ l

theorem mem_sortedPieceTypes {x : Nat} {l : List Nat} :
    x ∈ sortedPieceTypes l ↔ x ∈ l := by
  unfold sortedPieceTypes
  rw [mem_sortDesc, List.mem_dedup]

theorem mem_sortedPieceTypesAsc {x : Nat} {l : List Nat} :
    x ∈ sortedPieceTypesAsc l ↔ x ∈ l := by
  unfold sortedPieceTypesAsc
  rw [(List.perm_insertionSort _ _).mem_iff, List.mem_dedup]

/-! ## Min-pieces DP: table structure lemmas -/

theorem dpMinTable_length (order : List Nat) :
    ∀ n, (dpMinTable order n).length = n + 1
  | 0 => rfl
  | n + 1 => by
    simp [dpMinTable, dpMinTable_length order n]

theorem dpMinTable_getD (order : List Nat) {j n : Nat} (h : j ≤ n) (d : StMin) :
    (dpMinTable order n).getD j d = dpMinSt order j := by
  induction n with
  | zero =>
    have hj : j = 0 := Nat.le_zero.mp h
    subst hj; rfl
  | succ n ih =>
    rcases Nat.lt_or_ge j (n + 1) with hj | hj
    · have hlen : j < (dpMinTable order n).length := by
        rw [dpMinTable_length]; omega
      show ((dpMinTable order n) ++ _).getD j d = _
      rw [List.getD_append _ _ _ _ hlen, ih (by omega)]
    · have hj' : j = n + 1 := by omega
      subst hj'
      show ((dpMinTable order n) ++ _).getD (n + 1) d = dpMinSt order (n + 1)
      unfold dpMinSt
      show _ = ((dpMinTable order n) ++ _).getD (n + 1) dfltMin
      rw [List.getD_append_right _ _ _ _ (by rw [dpMinTable_length]),
        List.getD_append_right _ _ _ _ (by rw [dpMinTable_length]),
        dpMinTable_length]
      simp

theorem dpMinSt_zero (order : List Nat) : dpMinSt order 0 = (0, some 0, []) := rfl

theorem dpMinSt_succ (order : List Nat) (n : Nat) :
    dpMinSt order (n + 1) = minCell order (dpMinTable order n) (n + 1) := by
  unfold dpMinSt
  show ((dpMinTable order n) ++ [minCell order (dpMinTable order n) (n + 1)]).getD
      (n + 1) dfltMin = _
  rw [List.getD_append_right _ _ _ _ (by rw [dpMinTable_length]),
    dpMinTable_length]
  simp

/-! ## Min-pieces DP: invariants and optimality of the value -/


theorem minStep_sum_mono (tbl : List StMin) (i : Nat) (cur : StMin) (p : Nat) :
    cur.1 ≤ (minStep tbl i cur p).1 := by
  simp only [minStep]
  split
  · split
    · next h => exact Nat.le_of_lt h
    · split
      · next h => exact Nat.le_of_eq h.1.symm
      · exact Nat.le_refl _
  · exact Nat.le_refl _

theorem minStep_sum_ge_cand (tbl : List StMin) (i : Nat) (cur : StMin) {p : Nat}
    (h0 : 0 < p) (hpi : p ≤ i) :
    (tbl.getD (i - p) dfltMin).1 + p ≤ (minStep tbl i cur p).1 := by
  simp only [minStep]
  split
  · split
    · exact Nat.le_refl _
    · split
      · exact Nat.le_refl _
      · next h _ => exact Nat.le_of_not_lt h
  · next h => exact absurd ⟨h0, hpi⟩ h

theorem minStep_good (C : Nat → Prop) (tbl : List StMin) (i : Nat) (cur : StMin)
    (p : Nat) (hC : 0 < p ∧ p ≤ i → C p)
    (htbl : 0 < p → p ≤ i → GoodMin C (i - p) (tbl.getD (i - p) dfltMin))
    (hcur : GoodMin C i cur) : GoodMin C i (minStep tbl i cur p) := by
  simp only [minStep]
  split
  · next hg =>
    obtain ⟨hb, hs, hcb⟩ := htbl hg.1 hg.2
    have hupd : GoodMin C i
        ((tbl.getD (i - p) dfltMin).1 + p, cntSucc (tbl.getD (i - p) dfltMin).2.1,
          (tbl.getD (i - p) dfltMin).2.2 ++ [p]) := by
      refine ⟨by omega,
        by simp only [List.sum_append, List.sum_cons, List.sum_nil]; omega,
        fun x hx => ?_⟩
      rcases List.mem_append.mp hx with h | h
      · exact hcb x h
      · rw [List.mem_singleton] at h; subst h; exact hC hg
    split
    · exact hupd
    · split
      · exact hupd
      · exact hcur
  · exact hcur

theorem foldl_minStep_sum_mono (tbl : List StMin) (i : Nat) :
    ∀ (l : List Nat) (cur : StMin), cur.1 ≤ (l.foldl (minStep tbl i) cur).1
  | [], _ => Nat.le_refl _
  | p :: l', cur =>
    Nat.le_trans (minStep_sum_mono tbl i cur p)
      (foldl_minStep_sum_mono tbl i l' (minStep tbl i cur p))

theorem foldl_minStep_sum_ge (tbl : List StMin) (i : Nat) :
    ∀ (l : List Nat) (cur : StMin) {p : Nat}, p ∈ l → 0 < p → p ≤ i →
      (tbl.getD (i - p) dfltMin).1 + p ≤ (l.foldl (minStep tbl i) cur).1
  | [], _, _, hp, _, _ => absurd hp (List.not_mem_nil _)
  | q :: l', cur, p, hp, h0, hpi => by
    rcases List.mem_cons.mp hp with rfl | hmem
    · exact Nat.le_trans (minStep_sum_ge_cand tbl i cur h0 hpi)
        (foldl_minStep_sum_mono tbl i l' _)
    · exact foldl_minStep_sum_ge tbl i l' _ hmem h0 hpi

theorem foldl_minStep_good (C : Nat → Prop) (tbl : List StMin) (i : Nat) :
    ∀ (l : List Nat) (cur : StMin), (∀ p ∈ l, C p) →
      (∀ p, 0 < p → p ≤ i → GoodMin C (i - p) (tbl.getD (i - p) dfltMin)) →
      GoodMin C i cur → GoodMin C i (l.foldl (minStep tbl i) cur)
  | [], _, _, _, hcur => hcur
  | p :: l', cur, hl, htbl, hcur =>
    foldl_minStep_good C tbl i l' _ (fun q hq => hl q (List.mem_cons_of_mem _ hq))
      htbl
      (minStep_good C tbl i cur p (fun _ => hl p (List.mem_cons_self _ _))
        (htbl p) hcur)

theorem dpMinSt_good (catalog order : List Nat)
    (horder : ∀ p ∈ order, p ∈ catalog) :
    ∀ n, GoodMin (· ∈ catalog) n (dpMinSt order n) := by
  intro n
  induction n using Nat.strong_induction_on with
  | _ n ih =>
    cases n with
    | zero =>
      exact ⟨Nat.le_refl 0, rfl, fun x hx => absurd hx (List.not_mem_nil x)⟩
    | succ m =>
      rw [dpMinSt_succ]
      refine foldl_minStep_good _ _ _ order (0, none, []) horder ?_ ?_
      · intro p h0 hpi
        rw [dpMinTable_getD order (by omega)]
        exact ih _ (by omega)
      · exact ⟨Nat.zero_le _, rfl, fun x hx => absurd hx (List.not_mem_nil x)⟩

theorem dpMinSt_dom (catalog order : List Nat)
    (horder : ∀ p ∈ catalog, p ∈ order) (hpos : ∀ p ∈ catalog, 0 < p) :
    ∀ n m, Combo catalog m → m.sum ≤ n → m.sum ≤ (dpMinSt order n).1 := by
  intro n
  induction n using Nat.strong_induction_on with
  | _ n ih =>
    intro m hm hle
    cases m with
    | nil => exact Nat.zero_le _
    | cons p rest =>
      have hpc : p ∈ catalog := hm p (List.mem_cons_self _ _)
      have hp0 : 0 < p := hpos p hpc
      have hsum : p + rest.sum ≤ n := by simpa using hle
      obtain ⟨k, rfl⟩ : ∃ k, n = k + 1 := ⟨n - 1, by omega⟩
      have hrest : rest.sum ≤ (dpMinSt order (k + 1 - p)).1 :=
        ih (k + 1 - p) (by omega) rest
          (fun x hx => hm x (List.mem_cons_of_mem _ hx)) (by omega)
      have hcand := foldl_minStep_sum_ge (dpMinTable order k) (k + 1) order
        (0, none, []) (horder p hpc) hp0 (by omega)
      rw [dpMinTable_getD order (by omega)] at hcand
      rw [dpMinSt_succ]
      show (p :: rest).sum ≤ (minCell order (dpMinTable order k) (k + 1)).1
      simp only [minCell, List.sum_cons]
      omega

theorem dpMinSt_maxFill (catalog order : List Nat)
    (hmem : ∀ p, p ∈ order ↔ p ∈ catalog) (hpos : ∀ p ∈ catalog, 0 < p)
    (n : Nat) : maxFillSpec catalog n (dpMinSt order n).1 := by
  obtain ⟨hb, hs, hc⟩ := dpMinSt_good catalog order (fun p hp => (hmem p).mp hp) n
  refine ⟨⟨(dpMinSt order n).2.2, hc, hs⟩, hb, ?_⟩
  rintro t ⟨m, hm, rfl⟩ hle
  exact dpMinSt_dom catalog order (fun p hp => (hmem p).mpr hp) hpos n m hm hle

/-! ## Max-pieces DP: table structure lemmas -/

theorem dpMaxTable_length (order : List Nat) :
    ∀ n, (dpMaxTable order n).length = n + 1
  | 0 => rfl
  | n + 1 => by
    simp [dpMaxTable, dpMaxTable_length order n]

theorem dpMaxTable_getD (order : List Nat) {j n : Nat} (h : j ≤ n) (d : StMax) :
    (dpMaxTable order n).getD j d = dpMaxSt order j := by
  induction n with
  | zero =>
    have hj : j = 0 := Nat.le_zero.mp h
    subst hj; rfl
  | succ n ih =>
    rcases Nat.lt_or_ge j (n + 1) with hj | hj
    · have hlen : j < (dpMaxTable order n).length := by
        rw [dpMaxTable_length]; omega
      show ((dpMaxTable order n) ++ _).getD j d = _
      rw [List.getD_append _ _ _ _ hlen, ih (by omega)]
    · have hj' : j = n + 1 := by omega
      subst hj'
      show ((dpMaxTable order n) ++ _).getD (n + 1) d = dpMaxSt order (n + 1)
      unfold dpMaxSt
      show _ = ((dpMaxTable order n) ++ _).getD (n + 1) dfltMax
      rw [List.getD_append_right _ _ _ _ (by rw [dpMaxTable_length]),
        List.getD_append_right _ _ _ _ (by rw [dpMaxTable_length]),
        dpMaxTable_length]
      simp

theorem dpMaxSt_zero (order : List Nat) : dpMaxSt order 0 = (0, 0, []) := rfl

theorem dpMaxSt_succ (order : List Nat) (n : Nat) :
    dpMaxSt order (n + 1) = maxCell order (dpMaxTable order n) (n + 1) := by
  unfold dpMaxSt
  show ((dpMaxTable order n) ++ [maxCell order (dpMaxTable order n) (n + 1)]).getD
      (n + 1) dfltMax = _
  rw [List.getD_append_right _ _ _ _ (by rw [dpMaxTable_length]),
    dpMaxTable_length]
  simp

/-! ## Max-pieces DP: invariants, value optimality, count maximality -/


theorem lexLe_trans {s c : Nat} {st st' : StMax} (h : lexLe s c st)
    (h' : lexLe st.1 st.2.1 st') : lexLe s c st' := by
  rcases h with h | ⟨h1, h2⟩ <;> rcases h' with h' | ⟨h1', h2'⟩
  · exact Or.inl (Nat.lt_trans h h')
  · exact Or.inl (h1' ▸ h)
  · exact Or.inl (h1 ▸ h')
  · exact Or.inr ⟨h1.trans h1', h2.trans h2'⟩

theorem maxStep_lex_mono (tbl : List StMax) (i : Nat) (cur : StMax) (p : Nat) :
    lexLe cur.1 cur.2.1 (maxStep tbl i cur p) := by
  simp only [maxStep]
  split
  · split
    · next h => exact Or.inl h
    · split
      · next h => exact Or.inr ⟨h.1.symm, Nat.le_of_lt h.2⟩
      · exact Or.inr ⟨rfl, Nat.le_refl _⟩
  · exact Or.inr ⟨rfl, Nat.le_refl _⟩

theorem maxStep_lex_ge_cand (tbl : List StMax) (i : Nat) (cur : StMax) {p : Nat}
    (h0 : 0 < p) (hpi : p ≤ i) :
    lexLe ((tbl.getD (i - p) dfltMax).1 + p) ((tbl.getD (i - p) dfltMax).2.1 + 1)
      (maxStep tbl i cur p) := by
  simp only [maxStep]
  split
  · split
    · exact Or.inr ⟨rfl, Nat.le_refl _⟩
    · split
      · exact Or.inr ⟨rfl, Nat.le_refl _⟩
      · next h h' =>
        rcases Nat.lt_or_ge ((tbl.getD (i - p) dfltMax).1 + p) cur.1 with hlt | hge
        · exact Or.inl hlt
        · have he : (tbl.getD (i - p) dfltMax).1 + p = cur.1 := by omega

          exact Or.inr ⟨he, by omega⟩
  · next h => exact absurd ⟨h0, hpi⟩ h

theorem foldl_maxStep_lex_mono (tbl : List StMax) (i : Nat) :
    ∀ (l : List Nat) (cur : StMax),
      lexLe cur.1 cur.2.1 (l.foldl (maxStep tbl i) cur)
  | [], _ => Or.inr ⟨rfl, Nat.le_refl _⟩
  | p :: l', cur =>
    lexLe_trans (maxStep_lex_mono tbl i cur p)
      (foldl_maxStep_lex_mono tbl i l' (maxStep tbl i cur p))

theorem foldl_maxStep_lex_ge (tbl : List StMax) (i : Nat) :
    ∀ (l : List Nat) (cur : StMax) {p : Nat}, p ∈ l → 0 < p → p ≤ i →
      lexLe ((tbl.getD (i - p) dfltMax).1 + p)
        ((tbl.getD (i - p) dfltMax).2.1 + 1) (l.foldl (maxStep tbl i) cur)
  | [], _, _, hp, _, _ => absurd hp (List.not_mem_nil _)
  | q :: l', cur, p, hp, h0, hpi => by
    rcases List.mem_cons.mp hp with rfl | hmem
    · exact lexLe_trans (maxStep_lex_ge_cand tbl i cur h0 hpi)
        (foldl_maxStep_lex_mono tbl i l' _)
    · exact foldl_maxStep_lex_ge tbl i l' _ hmem h0 hpi

theorem maxStep_good (C : Nat → Prop) (tbl : List StMax) (i : Nat) (cur : StMax)
    (p : Nat) (hC : 0 < p ∧ p ≤ i → C p)
    (htbl : 0 < p → p ≤ i → GoodMax C (i - p) (tbl.getD (i - p) dfltMax))
    (hcur : GoodMax C i cur) : GoodMax C i (maxStep tbl i cur p) := by
  simp only [maxStep]
  split
  · next hg =>
    obtain ⟨hb, hs, hn, hcb⟩ := htbl hg.1 hg.2
    have hupd : GoodMax C i
        ((tbl.getD (i - p) dfltMax).1 + p, (tbl.getD (i - p) dfltMax).2.1 + 1,
          (tbl.getD (i - p) dfltMax).2.2 ++ [p]) := by
      refine ⟨by omega,
        by simp only [List.sum_append, List.sum_cons, List.sum_nil]; omega,
        by simp only [List.length_append, List.length_cons, List.length_nil]; omega,
        fun x hx => ?_⟩
      rcases List.mem_append.mp hx with h | h
      · exact hcb x h
      · rw [List.mem_singleton] at h; subst h; exact hC hg
    split
    · exact hupd
    · split
      · exact hupd
      · exact hcur
  · exact hcur

theorem foldl_maxStep_good (C : Nat → Prop) (tbl : List StMax) (i : Nat) :
    ∀ (l : List Nat) (cur : StMax), (∀ p ∈ l, C p) →
      (∀ p, 0 < p → p ≤ i → GoodMax C (i - p) (tbl.getD (i - p) dfltMax)) →
      GoodMax C i cur → GoodMax C i (l.foldl (maxStep tbl i) cur)
  | [], _, _, _, hcur => hcur
  | p :: l', cur, hl, htbl, hcur =>
    foldl_maxStep_good C tbl i l' _ (fun q hq => hl q (List.mem_cons_of_mem _ hq))
      htbl
      (maxStep_good C tbl i cur p (fun _ => hl p (List.mem_cons_self _ _))
        (htbl p) hcur)

theorem dpMaxSt_good (catalog order : List Nat)
    (horder : ∀ p ∈ order, p ∈ catalog) :
    ∀ n, GoodMax (· ∈ catalog) n (dpMaxSt order n) := by
  intro n
  induction n using Nat.strong_induction_on with
  | _ n ih =>
    cases n with
    | zero =>
      exact ⟨Nat.le_refl 0, rfl, rfl, fun x hx => absurd hx (List.not_mem_nil x)⟩
    | succ m =>
      rw [dpMaxSt_succ]
      refine foldl_maxStep_good _ _ _ order (0, 0, []) horder ?_ ?_
      · intro p h0 hpi
        rw [dpMaxTable_getD order (by omega)]
        exact ih _ (by omega)
      · exact ⟨Nat.zero_le _, rfl, rfl, fun x hx => absurd hx (List.not_mem_nil x)⟩

theorem maxStep_sum_mono (tbl : List StMax) (i : Nat) (cur : StMax) (p : Nat) :
    cur.1 ≤ (maxStep tbl i cur p).1 := by
  rcases maxStep_lex_mono tbl i cur p with h | ⟨h, _⟩
  · exact Nat.le_of_lt h
  · exact Nat.le_of_eq h

theorem dpMaxSt_dom (catalog order : List Nat)
    (horder : ∀ p ∈ catalog, p ∈ order) (hpos : ∀ p ∈ catalog, 0 < p) :
    ∀ n m, Combo catalog m → m.sum ≤ n → m.sum ≤ (dpMaxSt order n).1 := by
  intro n
  induction n using Nat.strong_induction_on with
  | _ n ih =>
    intro m hm hle
    cases m with
    | nil => exact Nat.zero_le _
    | cons p rest =>
      have hpc : p ∈ catalog := hm p (List.mem_cons_self _ _)
      have hp0 : 0 < p := hpos p hpc
      have hsum : p + rest.sum ≤ n := by simpa using hle
      obtain ⟨k, rfl⟩ : ∃ k, n = k + 1 := ⟨n - 1, by omega⟩
      have hrest : rest.sum ≤ (dpMaxSt order (k + 1 - p)).1 :=
        ih (k + 1 - p) (by omega) rest
          (fun x hx => hm x (List.mem_cons_of_mem _ hx)) (by omega)
      have hcand := foldl_maxStep_lex_ge (dpMaxTable order k) (k + 1) order
        (0, 0, []) (horder p hpc) hp0 (by omega)
      rw [dpMaxTable_getD order (by omega)] at hcand
      rw [dpMaxSt_succ]
      show (p :: rest).sum ≤ (maxCell order (dpMaxTable order k) (k + 1)).1
      simp only [maxCell, List.sum_cons]
      rcases hcand with h | ⟨h, _⟩ <;> omega

theorem dpMaxSt_maxFill (catalog order : List Nat)
    (hmem : ∀ p, p ∈ order ↔ p ∈ catalog) (hpos : ∀ p ∈ catalog, 0 < p)
    (n : Nat) : maxFillSpec catalog n (dpMaxSt order n).1 := by
  obtain ⟨hb, hs, _, hc⟩ := dpMaxSt_good catalog order (fun p hp => (hmem p).mp hp) n
  refine ⟨⟨(dpMaxSt order n).2.2, hc, hs⟩, hb, ?_⟩
  rintro t ⟨m, hm, rfl⟩ hle
  exact dpMaxSt_dom catalog order (fun p hp => (hmem p).mpr hp) hpos n m hm hle

/-- The count stored by the max-pieces DP dominates the length of every
combination whose sum equals the DP value. -/
theorem dpMaxSt_cnt (catalog order : List Nat)
    (hmem : ∀ p, p ∈ order ↔ p ∈ catalog) (hpos : ∀ p ∈ catalog, 0 < p) :
    ∀ n m, Combo catalog m → m.sum = (dpMaxSt order n).1 →
      m.length ≤ (dpMaxSt order n).2.1 := by
  intro n
  induction n using Nat.strong_induction_on with
  | _ n ih =>
    intro m hm hsum
    cases m with
    | nil => exact Nat.zero_le _
    | cons p rest =>
      have hpc : p ∈ catalog := hm p (List.mem_cons_self _ _)
      have hp0 : 0 < p := hpos p hpc
      have hSn : (dpMaxSt order n).1 ≤ n :=
        (dpMaxSt_good catalog order (fun q hq => (hmem q).mp hq) n).1
      have hsum' : p + rest.sum = (dpMaxSt order n).1 := by simpa using hsum
      obtain ⟨k, rfl⟩ : ∃ k, n = k + 1 := ⟨n - 1, by omega⟩
      -- the DP value at capacity `k + 1 - p` is exactly `rest.sum`
      have h1 : rest.sum ≤ (dpMaxSt order (k + 1 - p)).1 :=
        dpMaxSt_dom catalog order (fun q hq => (hmem q).mpr hq) hpos (k + 1 - p)
          rest (fun x hx => hm x (List.mem_cons_of_mem _ hx)) (by omega)
      have hgp := dpMaxSt_good catalog order (fun q hq => (hmem q).mp hq) (k + 1 - p)
      have h2 : (dpMaxSt order (k + 1 - p)).1 + p ≤ (dpMaxSt order (k + 1)).1 := by
        have := dpMaxSt_dom catalog order (fun q hq => (hmem q).mpr hq) hpos (k + 1)
          ((dpMaxSt order (k + 1 - p)).2.2 ++ [p])
          (fun x hx => by
            rcases List.mem_append.mp hx with h | h
            · exact hgp.2.2.2 x h
            · rw [List.mem_singleton] at h; subst h; exact hpc)
          (by
            simp only [List.sum_append, List.sum_cons, List.sum_nil]
            have := hgp.1
            rw [hgp.2.1]
            omega)
        simpa only [List.sum_append, List.sum_cons, List.sum_nil, hgp.2.1] using this
      have heq : (dpMaxSt order (k + 1 - p)).1 = rest.sum := by omega
      have h3 : rest.length ≤ (dpMaxSt order (k + 1 - p)).2.1 :=
        ih (k + 1 - p) (by omega) rest
          (fun x hx => hm x (List.mem_cons_of_mem _ hx)) heq.symm
      have h4 := foldl_maxStep_lex_ge (dpMaxTable order k) (k + 1) order
        (0, 0, []) ((hmem p).mpr hpc) hp0 (by omega)
      rw [dpMaxTable_getD order (by omega)] at h4
      have h4' : lexLe ((dpMaxSt order (k + 1 - p)).1 + p)
          ((dpMaxSt order (k + 1 - p)).2.1 + 1) (dpMaxSt order (k + 1)) := by
        rw [dpMaxSt_succ]
        exact h4
      show rest.length + 1 ≤ (dpMaxSt order (k + 1)).2.1
      rcases h4' with h | ⟨_, hcle⟩ <;> omega

/-! ## Large-priority DP: pass lemmas and value optimality -/

theorem lpPassAux_length (p : Nat) (old : List (Nat × List Nat)) :
    ∀ n, (lpPassAux p old n).length = n + 1
  | 0 => rfl
  | n + 1 => by
    simp [lpPassAux, lpPassAux_length p old n]


theorem lpPassAux_getD (p : Nat) (old : List (Nat × List Nat)) {j n : Nat}
    (h : j ≤ n) (d : Nat × List Nat) :
    (lpPassAux p old n).getD j d = lpVal p old j := by
  induction n with
  | zero =>
    have hj : j = 0 := Nat.le_zero.mp h
    subst hj; rfl
  | succ n ih =>
    rcases Nat.lt_or_ge j (n + 1) with hj | hj
    · have hlen : j < (lpPassAux p old n).length := by
        rw [lpPassAux_length]; omega
      show ((lpPassAux p old n) ++ _).getD j d = _
      rw [List.getD_append _ _ _ _ hlen, ih (by omega)]
    · have hj' : j = n + 1 := by omega
      subst hj'
      show ((lpPassAux p old n) ++ _).getD (n + 1) d = lpVal p old (n + 1)
      unfold lpVal
      show _ = ((lpPassAux p old n) ++ _).getD (n + 1) (0, [])
      rw [List.getD_append_right _ _ _ _ (by rw [lpPassAux_length]),
        List.getD_append_right _ _ _ _ (by rw [lpPassAux_length]),
        lpPassAux_length]
      simp

theorem lpVal_zero (p : Nat) (old : List (Nat × List Nat)) :
    lpVal p old 0 = old.getD 0 (0, []) := by
  show lpCell p old [] 0 = old.getD 0 (0, [])
  simp only [lpCell]
  rw [if_neg (by omega)]

theorem lpVal_succ (p : Nat) (old : List (Nat × List Nat)) (n : Nat) :
    lpVal p old (n + 1) = lpCell p old (lpPassAux p old n) (n + 1) := by
  unfold lpVal
  show ((lpPassAux p old n) ++ [lpCell p old (lpPassAux p old n) (n + 1)]).getD
      (n + 1) (0, []) = _
  rw [List.getD_append_right _ _ _ _ (by rw [lpPassAux_length]),
    lpPassAux_length]
  simp

theorem lpVal_ge_old (p : Nat) (old : List (Nat × List Nat)) :
    ∀ n, (old.getD n (0, [])).1 ≤ (lpVal p old n).1
  | 0 => by rw [lpVal_zero]
  | n + 1 => by
    rw [lpVal_succ]
    simp only [lpCell]
    split
    · split
      · next h => exact Nat.le_of_lt h
      · exact Nat.le_refl _
    · exact Nat.le_refl _

theorem lpVal_cand (p : Nat) (old : List (Nat × List Nat)) {n : Nat}
    (h0 : 0 < p) (hpn : p ≤ n) :
    (lpVal p old (n - p)).1 + p ≤ (lpVal p old n).1 := by
  obtain ⟨k, rfl⟩ : ∃ k, n = k + 1 := ⟨n - 1, by omega⟩
  rw [lpVal_succ]
  simp only [lpCell]
  rw [if_pos ⟨h0, hpn⟩, lpPassAux_getD p old (show k + 1 - p ≤ k by omega)]
  split
  · exact Nat.le_refl _
  · next h => exact Nat.le_of_not_lt h


theorem GoodLp_mono {C C' : Nat → Prop} (h : ∀ x, C x → C' x) {i : Nat}
    {st : Nat × List Nat} : GoodLp C i st → GoodLp C' i st :=
  fun ⟨a, b, c⟩ => ⟨a, b, fun x hx => h x (c x hx)⟩

theorem lpVal_good (p : Nat) (old : List (Nat × List Nat)) (C : Nat → Prop)
    (hold : ∀ j, GoodLp C j (old.getD j (0, []))) :
    ∀ n, GoodLp (fun x => x = p ∨ C x) n (lpVal p old n) := by
  intro n
  induction n using Nat.strong_induction_on with
  | _ n ih =>
    cases n with
    | zero =>
      rw [lpVal_zero]
      exact GoodLp_mono (fun x hx => Or.inr hx) (hold 0)
    | succ m =>
      rw [lpVal_succ]
      simp only [lpCell]
      split
      · next hg =>
        rw [lpPassAux_getD p old (show m + 1 - p ≤ m by omega)]
        split
        · obtain ⟨hb, hs, hcb⟩ := ih (m + 1 - p) (by omega)
          refine ⟨by omega,
            by simp only [List.sum_append, List.sum_cons, List.sum_nil]; omega,
            fun x hx => ?_⟩
          rcases List.mem_append.mp hx with h | h
          · exact hcb x h
          · rw [List.mem_singleton] at h; subst h; exact Or.inl rfl
        · exact GoodLp_mono (fun x hx => Or.inr hx) (hold (m + 1))
      · exact GoodLp_mono (fun x hx => Or.inr hx) (hold (m + 1))

theorem lpVal_dom (p : Nat) (old : List (Nat × List Nat)) (C : Nat → Prop)
    (h0 : 0 < p) :
    ∀ n, (∀ j, j ≤ n → ∀ m, ComboP C m → m.sum ≤ j → m.sum ≤ (old.getD j (0, [])).1) →
      ∀ m, ComboP (fun x => x = p ∨ C x) m → m.sum ≤ n →
        m.sum ≤ (lpVal p old n).1 := by
  intro n
  induction n using Nat.strong_induction_on with
  | _ n ih =>
    intro hdold m hm hle
    by_cases hpm : p ∈ m
    · have hperm : m.Perm (p :: m.erase p) := List.perm_cons_erase hpm
      have hsum : m.sum = p + (m.erase p).sum := by
        rw [hperm.sum_eq]; simp
      have hpn : p ≤ n := by omega
      have hrest : (m.erase p).sum ≤ (lpVal p old (n - p)).1 :=
        ih (n - p) (by omega) (fun j hj m' => hdold j (by omega) m') (m.erase p)
          (fun x hx => hm x (List.mem_of_mem_erase hx)) (by omega)
      have hcand := lpVal_cand p old h0 hpn
      omega
    · have hmC : ComboP C m := fun x hx => by
        rcases hm x hx with rfl | h
        · exact absurd hx hpm
        · exact h
      exact Nat.le_trans (hdold n (Nat.le_refl n) m hmC hle) (lpVal_ge_old p old n)

theorem lpFold_spec (cap : Nat) :
    ∀ (l : List Nat) (old : List (Nat × List Nat)) (C : Nat → Prop),
      old.length = cap + 1 →
      (∀ j, GoodLp C j (old.getD j (0, []))) →
      (∀ j, j ≤ cap → ∀ m, ComboP C m → m.sum ≤ j → m.sum ≤ (old.getD j (0, [])).1) →
      (∀ q ∈ l, 0 < q) →
      (l.foldl (lpPass cap) old).length = cap + 1 ∧
      (∀ j, GoodLp (fun x => x ∈ l ∨ C x) j ((l.foldl (lpPass cap) old).getD j (0, []))) ∧
      (∀ j, j ≤ cap → ∀ m, ComboP (fun x => x ∈ l ∨ C x) m → m.sum ≤ j →
        m.sum ≤ ((l.foldl (lpPass cap) old).getD j (0, [])).1) := by
  intro l
  induction l with
  | nil =>
    intro old C hlen hgood hdom _
    refine ⟨hlen, fun j => ?_, fun j hj m hm hle => ?_⟩
    · exact GoodLp_mono (fun x hx => Or.inr hx) (hgood j)
    · refine hdom j hj m (fun x hx => ?_) hle
      rcases hm x hx with h | h
      · exact absurd h (List.not_mem_nil x)
      · exact h
  | cons q l' ihl =>
    intro old C hlen hgood hdom hql
    have hq0 : 0 < q := hql q (List.mem_cons_self _ _)
    have hnew_len : (lpPass cap old q).length = cap + 1 := lpPassAux_length q old cap
    have hnew_getD : ∀ j, j ≤ cap → (lpPass cap old q).getD j (0, []) = lpVal q old j :=
      fun j hj => lpPassAux_getD q old hj _
    have hnew_good : ∀ j, GoodLp (fun x => x = q ∨ C x) j
        ((lpPass cap old q).getD j (0, [])) := by
      intro j
      rcases Nat.lt_or_ge j (cap + 1) with hj | hj
      · rw [hnew_getD j (by omega)]; exact lpVal_good q old C hgood j
      · rw [List.getD_eq_default _ _ (by rw [hnew_len]; omega)]
        exact ⟨Nat.zero_le _, rfl, fun x hx => absurd hx (List.not_mem_nil x)⟩
    have hnew_dom : ∀ j, j ≤ cap → ∀ m, ComboP (fun x => x = q ∨ C x) m →
        m.sum ≤ j → m.sum ≤ ((lpPass cap old q).getD j (0, [])).1 := by
      intro j hj m hm hle
      rw [hnew_getD j hj]
      exact lpVal_dom q old C hq0 j (fun j' hj' m' => hdom j' (by omega) m') m hm hle
    obtain ⟨h1, h2, h3⟩ := ihl (lpPass cap old q) (fun x => x = q ∨ C x) hnew_len
      hnew_good hnew_dom (fun r hr => hql r (List.mem_cons_of_mem _ hr))
    refine ⟨h1, fun j => ?_, fun j hj m hm hle => ?_⟩
    · refine GoodLp_mono (fun x hx => ?_) (h2 j)
      rcases hx with hx | hx | hx
      · exact Or.inl (List.mem_cons_of_mem _ hx)
      · subst hx; exact Or.inl (List.mem_cons_self _ _)
      · exact Or.inr hx
    · refine h3 j hj m (fun x hx => ?_) hle
      rcases hm x hx with hx' | hx'
      · rcases List.mem_cons.mp hx' with rfl | hmem
        · exact Or.inr (Or.inl rfl)
        · exact Or.inl hmem
      · exact Or.inr (Or.inr hx')

theorem lpTable_spec (catalog order : List Nat)
    (hmem : ∀ p, p ∈ order ↔ p ∈ catalog) (hpos : ∀ p ∈ catalog, 0 < p)
    (cap : Nat) :
    GoodLp (· ∈ catalog) cap ((lpTable cap order).getD cap (0, [])) ∧
    maxFillSpec catalog cap ((lpTable cap order).getD cap (0, [])).1 := by
  have hrep : ∀ j, (List.replicate (cap + 1) ((0 : Nat), ([] : List Nat))).getD
      j (0, []) = (0, []) := by
    intro j
    rcases Nat.lt_or_ge j (cap + 1) with hj | hj
    · rw [List.getD_eq_getElem _ _ (by simpa using hj)]
      exact List.getElem_replicate _ _
    · exact List.getD_eq_default _ _ (by simpa using hj)
  obtain ⟨hlen, hgood, hdom⟩ := lpFold_spec cap order
    (List.replicate (cap + 1) (0, [])) (fun _ => False)
    (by simp)
    (fun j => by
      rw [hrep j]
      exact ⟨Nat.zero_le _, rfl, fun x hx => absurd hx (List.not_mem_nil x)⟩)
    (fun j hj m hm hle => by
      have hnil : m = [] :=
        List.eq_nil_iff_forall_not_mem.mpr (fun x hx => (hm x hx).elim)
      subst hnil
      exact Nat.zero_le _)
    (fun q hq => hpos q ((hmem q).mp hq))
  have hgoodcat : GoodLp (· ∈ catalog) cap ((lpTable cap order).getD cap (0, [])) := by
    refine GoodLp_mono (fun x hx => ?_) (hgood cap)
    rcases hx with hx | hx
    · exact (hmem x).mp hx
    · exact hx.elim
  refine ⟨hgoodcat,
    ⟨((lpTable cap order).getD cap (0, [])).2, hgoodcat.2.2, hgoodcat.2.1⟩,
    hgoodcat.1, ?_⟩
  rintro t ⟨m, hm, rfl⟩ hle
  exact hdom cap (Nat.le_refl _) m (fun x hx => Or.inl ((hmem x).mpr (hm x hx))) hle

/-! ## Greedy: fold invariant -/

theorem greedy_foldl_inv (catalog : List Nat) :
    ∀ (l : List Nat) (acc : Nat × List Nat × Nat),
      (∀ p ∈ l, p ∈ catalog) →
      acc.2.1.sum = acc.1 → ComboP (· ∈ catalog) acc.2.1 →
      (l.foldl greedyStep acc).2.1.sum = (l.foldl greedyStep acc).1 ∧
      ComboP (· ∈ catalog) (l.foldl greedyStep acc).2.1 ∧
      (l.foldl greedyStep acc).1 + (l.foldl greedyStep acc).2.2 =
        acc.1 + acc.2.2
  | [], acc, _, hsum, hcombo => ⟨hsum, hcombo, rfl⟩
  | p :: l', acc, hl, hsum, hcombo => by
    have hstep_sum : (greedyStep acc p).2.1.sum = (greedyStep acc p).1 := by
      simp only [greedyStep]
      split
      · simp only [List.sum_append, List.sum_replicate, smul_eq_mul]
        rw [hsum]; ring
      · exact hsum
    have hstep_combo : ComboP (· ∈ catalog) (greedyStep acc p).2.1 := by
      simp only [greedyStep]
      split
      · intro x hx
        rcases List.mem_append.mp hx with h | h
        · exact hcombo x h
        · rw [List.eq_of_mem_replicate h]
          exact hl p (List.mem_cons_self _ _)
      · exact hcombo
    have hstep_budget : (greedyStep acc p).1 + (greedyStep acc p).2.2 =
        acc.1 + acc.2.2 := by
      simp only [greedyStep]
      split
      · next h =>
        have := Nat.div_add_mod acc.2.2 p
        simp only []
        omega
      · rfl
    obtain ⟨h1, h2, h3⟩ := greedy_foldl_inv catalog l' (greedyStep acc p)
      (fun q hq => hl q (List.mem_cons_of_mem _ hq)) hstep_sum hstep_combo
    exact ⟨h1, h2, by rw [List.foldl_cons, h3, hstep_budget]⟩

/-! ## Top-level selector facts -/

theorem min_pieces_eq (cap : Int) (catalog : List Nat) (hcap : 0 < cap)
    (hne : catalog ≠ []) :
    optimize_dp_max_fill_min_pieces cap catalog =
      ((dpMinSt (sortedPieceTypes catalog) cap.toNat).1,
        sortDesc (dpMinSt (sortedPieceTypes catalog) cap.toNat).2.2) := by
  unfold optimize_dp_max_fill_min_pieces
  rw [if_neg (not_or.mpr ⟨by omega, hne⟩)]

theorem large_priority_eq (cap : Int) (catalog : List Nat) (hcap : 0 < cap)
    (hne : catalog ≠ []) :
    optimize_dp_max_fill_large_priority cap catalog =
      (((lpTable cap.toNat (sortedPieceTypes catalog)).getD cap.toNat (0, [])).1,
        sortDesc ((lpTable cap.toNat (sortedPieceTypes catalog)).getD cap.toNat
          (0, [])).2) := by
  unfold optimize_dp_max_fill_large_priority
  rw [if_neg (not_or.mpr ⟨by omega, hne⟩)]

theorem max_pieces_eq (cap : Int) (catalog : List Nat) (hcap : 0 < cap)
    (hne : catalog ≠ []) :
    optimize_dp_max_fill_max_pieces cap catalog =
      ((dpMaxSt (sortedPieceTypesAsc catalog) cap.toNat).1,
        sortDesc (dpMaxSt (sortedPieceTypesAsc catalog) cap.toNat).2.2) := by
  unfold optimize_dp_max_fill_max_pieces
  rw [if_neg (not_or.mpr ⟨by omega, hne⟩)]

theorem maxFillSpec_unique {catalog : List Nat} {cap s t : Nat}
    (hs : maxFillSpec catalog cap s) (ht : maxFillSpec catalog cap t) : s = t :=
  Nat.le_antisymm (ht.2.2 s hs.1 hs.2.1) (hs.2.2 t ht.1 ht.2.1)

/-- C1: for every positive capacity and non-empty catalog of positive piece
lengths, each of the three DP strategies returns a `filled_sum` that is the
maximum sum `≤ capacity` achievable by a combination (with repetition) of
catalog values; consequently all three return the same `filled_sum`. -/
theorem dp_strategies_return_max_fill (cap : Int) (catalog : List Nat)
    (hcap : 0 < cap) (hne : catalog ≠ []) (hpos : ∀ x ∈ catalog, 0 < x) :
    maxFillSpec catalog cap.toNat (optimize_dp_max_fill_min_pieces cap catalog).1 ∧
    maxFillSpec catalog cap.toNat (optimize_dp_max_fill_large_priority cap catalog).1 ∧
    maxFillSpec catalog cap.toNat (optimize_dp_max_fill_max_pieces cap catalog).1 ∧
    (optimize_dp_max_fill_min_pieces cap catalog).1 =
      (optimize_dp_max_fill_large_priority cap catalog).1 ∧
    (optimize_dp_max_fill_max_pieces cap catalog).1 =
      (optimize_dp_max_fill_large_priority cap catalog).1 := by
  have hmin : maxFillSpec catalog cap.toNat
      (optimize_dp_max_fill_min_pieces cap catalog).1 := by
    rw [min_pieces_eq cap catalog hcap hne]
    exact dpMinSt_maxFill catalog _ (fun p => mem_sortedPieceTypes) hpos cap.toNat
  have hlp : maxFillSpec catalog cap.toNat
      (optimize_dp_max_fill_large_priority cap catalog).1 := by
    rw [large_priority_eq cap catalog hcap hne]
    exact (lpTable_spec catalog _ (fun p => mem_sortedPieceTypes) hpos cap.toNat).2
  have hmax : maxFillSpec catalog cap.toNat
      (optimize_dp_max_fill_max_pieces cap catalog).1 := by
    rw [max_pieces_eq cap catalog hcap hne]
    exact dpMaxSt_maxFill catalog _ (fun p => mem_sortedPieceTypesAsc) hpos cap.toNat
  exact ⟨hmin, hlp, hmax, maxFillSpec_unique hmin hlp, maxFillSpec_unique hmax hlp⟩

/-- witness for C1 at capacity 9, catalog `[5, 4]`. -/
theorem dp_strategies_return_max_fill_witness :
    (0 < (9 : Int)) ∧ (([5, 4] : List Nat) ≠ []) ∧
    (∀ x ∈ ([5, 4] : List Nat), 0 < x) ∧
    (maxFillSpec [5, 4] (9 : Int).toNat
        (optimize_dp_max_fill_min_pieces 9 [5, 4]).1 ∧
      maxFillSpec [5, 4] (9 : Int).toNat
        (optimize_dp_max_fill_large_priority 9 [5, 4]).1 ∧
      maxFillSpec [5, 4] (9 : Int).toNat
        (optimize_dp_max_fill_max_pieces 9 [5, 4]).1 ∧
      (optimize_dp_max_fill_min_pieces 9 [5, 4]).1 =
        (optimize_dp_max_fill_large_priority 9 [5, 4]).1 ∧
      (optimize_dp_max_fill_max_pieces 9 [5, 4]).1 =
        (optimize_dp_max_fill_large_priority 9 [5, 4]).1) :=
  ⟨by decide, by decide, by decide,
    dp_strategies_return_max_fill 9 [5, 4] (by decide) (by decide) (by decide)⟩

/-- C3: the combination returned by the max-pieces strategy realizes its
`filled_sum` (which is maximal) and has maximum length among all catalog
combinations whose sum equals that `filled_sum`. -/
theorem max_pieces_maximizes_piece_count (cap : Int) (catalog : List Nat)
    (hcap : 0 < cap) (hne : catalog ≠ []) (hpos : ∀ x ∈ catalog, 0 < x) :
    Combo catalog (optimize_dp_max_fill_max_pieces cap catalog).2 ∧
    (optimize_dp_max_fill_max_pieces cap catalog).2.sum =
      (optimize_dp_max_fill_max_pieces cap catalog).1 ∧
    maxFillSpec catalog cap.toNat (optimize_dp_max_fill_max_pieces cap catalog).1 ∧
    ∀ m, Combo catalog m →
      m.sum = (optimize_dp_max_fill_max_pieces cap catalog).1 →
      m.length ≤ (optimize_dp_max_fill_max_pieces cap catalog).2.length := by
  rw [max_pieces_eq cap catalog hcap hne]
  have hgood := dpMaxSt_good catalog (sortedPieceTypesAsc catalog)
    (fun p hp => mem_sortedPieceTypesAsc.mp hp) cap.toNat
  refine ⟨fun x hx => hgood.2.2.2 x (mem_sortDesc.mp hx),
    by rw [sortDesc_sum]; exact hgood.2.1,
    dpMaxSt_maxFill catalog _ (fun p => mem_sortedPieceTypesAsc) hpos cap.toNat,
    fun m hm hsum => ?_⟩
  rw [sortDesc_length, hgood.2.2.1]
  exact dpMaxSt_cnt catalog _ (fun p => mem_sortedPieceTypesAsc) hpos cap.toNat
    m hm hsum

/-- witness for C3 at capacity 9, catalog `[5, 4]`. -/
theorem max_pieces_maximizes_piece_count_witness :
    (0 < (9 : Int)) ∧ (([5, 4] : List Nat) ≠ []) ∧
    (∀ x ∈ ([5, 4] : List Nat), 0 < x) ∧
    (Combo [5, 4] (optimize_dp_max_fill_max_pieces 9 [5, 4]).2 ∧
      (optimize_dp_max_fill_max_pieces 9 [5, 4]).2.sum =
        (optimize_dp_max_fill_max_pieces 9 [5, 4]).1 ∧
      maxFillSpec [5, 4] (9 : Int).toNat
        (optimize_dp_max_fill_max_pieces 9 [5, 4]).1 ∧
      ∀ m, Combo [5, 4] m →
        m.sum = (optimize_dp_max_fill_max_pieces 9 [5, 4]).1 →
        m.length ≤ (optimize_dp_max_fill_max_pieces 9 [5, 4]).2.length) :=
  ⟨by decide, by decide, by decide,
    max_pieces_maximizes_piece_count 9 [5, 4] (by decide) (by decide) (by decide)⟩

/-- C2 (the code violates the claim): at capacity 13 with catalog
`[2, 6, 8]` the min-pieces strategy returns `filled_sum = 12` with the
3-piece combination `[8, 2, 2]`, although the 2-piece combination `[6, 6]`
from the same catalog also sums to 12. -/
theorem min_pieces_not_minimal_at_13 :
    optimize_dp_max_fill_min_pieces 13 [2, 6, 8] = (12, [8, 2, 2]) ∧
    Combo [2, 6, 8] [6, 6] ∧ ([6, 6] : List Nat).sum = 12 ∧
    ([6, 6] : List Nat).length <
      (optimize_dp_max_fill_min_pieces 13 [2, 6, 8]).2.length := by
  refine ⟨by decide, by decide, by decide, by decide⟩

/-- C4 counterexample: the greedy strategy does NOT return `(5, [5])` at
capacity 9 with catalog `[5, 4]` (it descends to the next size and fills
the span exactly). -/
theorem greedy_9_5_4_counterexample :
    optimize_greedy_largest_first 9 [5, 4] ≠ (5, [5]) := by decide

/-- C4 amended: at capacity 9 with catalog `[5, 4]` the three DP
strategies return `filled_sum` 9 with combination `[5, 4]` as the claim
states, and the greedy strategy does too: after taking 5 it descends to
the next catalog size, takes 4, and also returns `(9, [5, 4])`. -/
theorem greedy_9_5_4_amended :
    optimize_greedy_largest_first 9 [5, 4] = (9, [5, 4]) ∧
    optimize_dp_max_fill_min_pieces 9 [5, 4] = (9, [5, 4]) ∧
    optimize_dp_max_fill_large_priority 9 [5, 4] = (9, [5, 4]) ∧
    optimize_dp_max_fill_max_pieces 9 [5, 4] = (9, [5, 4]) := by
  refine ⟨by decide, by decide, by decide, by decide⟩


/-- C8: for every capacity ≥ 0 and every catalog of positive piece lengths
(the data model's `PieceLength` is a positive integer), each of the four
strategies returns a combination that sums to at most the capacity, draws
all its elements from the catalog, and is sorted descending. -/
theorem all_strategies_valid_combo (cap : Int) (catalog : List Nat)
    (hcap : 0 ≤ cap) (hpos : ∀ x ∈ catalog, 0 < x) :
    validCombo cap catalog (optimize_dp_max_fill_min_pieces cap catalog) ∧
    validCombo cap catalog (optimize_dp_max_fill_large_priority cap catalog) ∧
    validCombo cap catalog (optimize_dp_max_fill_max_pieces cap catalog) ∧
    validCombo cap catalog (optimize_greedy_largest_first cap catalog) := by
  have hnil : validCombo cap catalog (0, []) :=
    ⟨by simpa using hcap, fun x hx => absurd hx (List.not_mem_nil x),
      List.sorted_nil⟩
  have hcast : (cap.toNat : Int) = cap := Int.toNat_of_nonneg hcap
  by_cases hg : cap ≤ 0 ∨ catalog = []
  · refine ⟨?_, ?_, ?_, ?_⟩
    · unfold optimize_dp_max_fill_min_pieces; rw [if_pos hg]; exact hnil
    · unfold optimize_dp_max_fill_large_priority; rw [if_pos hg]; exact hnil
    · unfold optimize_dp_max_fill_max_pieces; rw [if_pos hg]; exact hnil
    · unfold optimize_greedy_largest_first; rw [if_pos hg]; exact hnil
  · have hcap0 : 0 < cap := by
      rcases not_or.mp hg with ⟨h1, _⟩
      omega
    have hne : catalog ≠ [] := (not_or.mp hg).2
    refine ⟨?_, ?_, ?_, ?_⟩
    · rw [min_pieces_eq cap catalog hcap0 hne]
      obtain ⟨hb, hs, hc⟩ := dpMinSt_good catalog (sortedPieceTypes catalog)
        (fun p hp => mem_sortedPieceTypes.mp hp) cap.toNat
      refine ⟨?_, fun x hx => hc x (mem_sortDesc.mp hx), sortDesc_sorted _⟩
      show ((sortDesc (dpMinSt (sortedPieceTypes catalog) cap.toNat).2.2).sum : Int) ≤ cap
      rw [sortDesc_sum, hs]
      calc ((dpMinSt (sortedPieceTypes catalog) cap.toNat).1 : Int) ≤
          (cap.toNat : Int) := by exact_mod_cast hb
        _ = cap := hcast
    · rw [large_priority_eq cap catalog hcap0 hne]
      obtain ⟨hb, hs, hc⟩ := (lpTable_spec catalog (sortedPieceTypes catalog)
        (fun p => mem_sortedPieceTypes) hpos cap.toNat).1
      refine ⟨?_, fun x hx => hc x (mem_sortDesc.mp hx), sortDesc_sorted _⟩
      show ((sortDesc ((lpTable cap.toNat (sortedPieceTypes catalog)).getD
        cap.toNat (0, [])).2).sum : Int) ≤ cap
      rw [sortDesc_sum, hs]
      calc (((lpTable cap.toNat (sortedPieceTypes catalog)).getD cap.toNat
            (0, [])).1 : Int) ≤ (cap.toNat : Int) := by exact_mod_cast hb
        _ = cap := hcast
    · rw [max_pieces_eq cap catalog hcap0 hne]
      obtain ⟨hb, hs, _, hc⟩ := dpMaxSt_good catalog (sortedPieceTypesAsc catalog)
        (fun p hp => mem_sortedPieceTypesAsc.mp hp) cap.toNat
      refine ⟨?_, fun x hx => hc x (mem_sortDesc.mp hx), sortDesc_sorted _⟩
      show ((sortDesc (dpMaxSt (sortedPieceTypesAsc catalog) cap.toNat).2.2).sum : Int) ≤ cap
      rw [sortDesc_sum, hs]
      calc ((dpMaxSt (sortedPieceTypesAsc catalog) cap.toNat).1 : Int) ≤
          (cap.toNat : Int) := by exact_mod_cast hb
        _ = cap := hcast
    · unfold optimize_greedy_largest_first
      rw [if_neg hg]
      obtain ⟨hsum, hcombo, hbud⟩ := greedy_foldl_inv catalog
        (sortedPieceTypes catalog) (0, [], cap.toNat)
        (fun p hp => mem_sortedPieceTypes.mp hp) rfl
        (fun x hx => absurd hx (List.not_mem_nil x))
      refine ⟨?_, fun x hx => hcombo x (mem_sortDesc.mp hx), sortDesc_sorted _⟩
      show ((sortDesc ((sortedPieceTypes catalog).foldl greedyStep
        (0, [], cap.toNat)).2.1).sum : Int) ≤ cap
      rw [sortDesc_sum, hsum]
      have hbud' : ((sortedPieceTypes catalog).foldl greedyStep
            (0, [], cap.toNat)).1 + ((sortedPieceTypes catalog).foldl greedyStep
            (0, [], cap.toNat)).2.2 = 0 + cap.toNat := hbud
      have hle : ((sortedPieceTypes catalog).foldl greedyStep
          (0, [], cap.toNat)).1 ≤ cap.toNat := by omega
      calc (((sortedPieceTypes catalog).foldl greedyStep
            (0, [], cap.toNat)).1 : Int) ≤ (cap.toNat : Int) := by
            exact_mod_cast hle
        _ = cap := hcast

/-- witness for C8 at capacity 9, catalog `[5, 4]`. -/
theorem all_strategies_valid_combo_witness :
    ((0 : Int) ≤ 9) ∧ (∀ x ∈ ([5, 4] : List Nat), 0 < x) ∧
    (validCombo 9 [5, 4] (optimize_dp_max_fill_min_pieces 9 [5, 4]) ∧
      validCombo 9 [5, 4] (optimize_dp_max_fill_large_priority 9 [5, 4]) ∧
      validCombo 9 [5, 4] (optimize_dp_max_fill_max_pieces 9 [5, 4]) ∧
      validCombo 9 [5, 4] (optimize_greedy_largest_first 9 [5, 4])) :=
  ⟨by decide, by decide,
    all_strategies_valid_combo 9 [5, 4] (by decide) (by decide)⟩

/-- C9: for capacity ≤ 0 or an empty catalog, each of the four selectors
returns exactly `(0, [])` (total functions: no exception is possible). -/
theorem selectors_degenerate (cap : Int) (catalog : List Nat)
    (h : cap ≤ 0 ∨ catalog = []) :
    optimize_dp_max_fill_min_pieces cap catalog = (0, []) ∧
    optimize_dp_max_fill_large_priority cap catalog = (0, []) ∧
    optimize_dp_max_fill_max_pieces cap catalog = (0, []) ∧
    optimize_greedy_largest_first cap catalog = (0, []) := by
  refine ⟨?_, ?_, ?_, ?_⟩
  · unfold optimize_dp_max_fill_min_pieces; rw [if_pos h]
  · unfold optimize_dp_max_fill_large_priority; rw [if_pos h]
  · unfold optimize_dp_max_fill_max_pieces; rw [if_pos h]
  · unfold optimize_greedy_largest_first; rw [if_pos h]

/-- witness for C9 at capacity -1, catalog `[5]`. -/
theorem selectors_degenerate_witness :
    ((-1 : Int) ≤ 0 ∨ ([5] : List Nat) = []) ∧
    (optimize_dp_max_fill_min_pieces (-1) [5] = (0, []) ∧
      optimize_dp_max_fill_large_priority (-1) [5] = (0, []) ∧
      optimize_dp_max_fill_max_pieces (-1) [5] = (0, []) ∧
      optimize_greedy_largest_first (-1) [5] = (0, [])) :=
  ⟨by decide, selectors_degenerate (-1) [5] (by decide)⟩


/-! ## Layout engine: success-path characterization -/

theorem layout_success_eq_even (f : Int → List Nat → Nat × List Nat)
    (total : ℚ) (pieces : List Nat) (base alpha : ℚ)
    (husable : 0 ≤ total - 2 * (base + alpha))
    (hbase : 0 ≤ base) (halpha : 0 ≤ alpha)
    (hle : ((f ⌊total - 2 * (base + alpha)⌋ pieces).1 : ℚ) ≤
      total - 2 * (base + alpha)) :
    calculate_single_strategy_layout f total pieces base alpha DistMethod.even =
      { status := LayoutStatus.success
        internal_alpha_waste := total - 2 * (base + alpha) -
          ((f ⌊total - 2 * (base + alpha)⌋ pieces).1 : ℚ)
        final_left_margin := (base + alpha) + (total - 2 * (base + alpha) -
          ((f ⌊total - 2 * (base + alpha)⌋ pieces).1 : ℚ)) / 2
        final_right_margin := (base + alpha) + (total - 2 * (base + alpha) -
          ((f ⌊total - 2 * (base + alpha)⌋ pieces).1 : ℚ)) / 2
        selected_pieces_combination := (f ⌊total - 2 * (base + alpha)⌋ pieces).2
        plot_elements :=
          ⟨SegKind.margin, 0,
            (base + alpha) + (total - 2 * (base + alpha) -
              ((f ⌊total - 2 * (base + alpha)⌋ pieces).1 : ℚ)) / 2,
            (base + alpha) + (total - 2 * (base + alpha) -
              ((f ⌊total - 2 * (base + alpha)⌋ pieces).1 : ℚ)) / 2⟩ ::
            (pieceSegs ((base + alpha) + (total - 2 * (base + alpha) -
                ((f ⌊total - 2 * (base + alpha)⌋ pieces).1 : ℚ)) / 2)
              (f ⌊total - 2 * (base + alpha)⌋ pieces).2 ++
              [⟨SegKind.margin,
                ((base + alpha) + (total - 2 * (base + alpha) -
                  ((f ⌊total - 2 * (base + alpha)⌋ pieces).1 : ℚ)) / 2) +
                  (((f ⌊total - 2 * (base + alpha)⌋ pieces).2.sum : Nat) : ℚ),
                total,
                (base + alpha) + (total - 2 * (base + alpha) -
                  ((f ⌊total - 2 * (base + alpha)⌋ pieces).1 : ℚ)) / 2⟩]) } := by
  have hL0 : (0 : ℚ) ≤ (base + alpha) + (total - 2 * (base + alpha) -
      ((f ⌊total - 2 * (base + alpha)⌋ pieces).1 : ℚ)) / 2 := by linarith
  have hmax : max (0 : ℚ) ((base + alpha) + (total - 2 * (base + alpha) -
      ((f ⌊total - 2 * (base + alpha)⌋ pieces).1 : ℚ)) / 2) =
      (base + alpha) + (total - 2 * (base + alpha) -
        ((f ⌊total - 2 * (base + alpha)⌋ pieces).1 : ℚ)) / 2 :=
    max_eq_right hL0
  have hctot : ((base + alpha) + (total - 2 * (base + alpha) -
        ((f ⌊total - 2 * (base + alpha)⌋ pieces).1 : ℚ)) / 2) +
      ((f ⌊total - 2 * (base + alpha)⌋ pieces).1 : ℚ) +
      ((base + alpha) + (total - 2 * (base + alpha) -
        ((f ⌊total - 2 * (base + alpha)⌋ pieces).1 : ℚ)) / 2) - total = 0 := by
    ring
  simp only [calculate_single_strategy_layout]
  rw [if_neg (not_lt.mpr husable), hmax, hctot]
  rw [if_neg (by rw [abs_zero]; norm_num)]

theorem layout_success_eq_none (f : Int → List Nat → Nat × List Nat)
    (total : ℚ) (pieces : List Nat) (base alpha : ℚ)
    (husable : 0 ≤ total - 2 * (base + alpha))
    (hbase : 0 ≤ base) (halpha : 0 ≤ alpha)
    (hle : ((f ⌊total - 2 * (base + alpha)⌋ pieces).1 : ℚ) ≤
      total - 2 * (base + alpha)) :
    calculate_single_strategy_layout f total pieces base alpha DistMethod.none_min =
      { status := LayoutStatus.success
        internal_alpha_waste := total - 2 * (base + alpha) -
          ((f ⌊total - 2 * (base + alpha)⌋ pieces).1 : ℚ)
        final_left_margin := base + alpha
        final_right_margin := (base + alpha) + (total - 2 * (base + alpha) -
          ((f ⌊total - 2 * (base + alpha)⌋ pieces).1 : ℚ))
        selected_pieces_combination := (f ⌊total - 2 * (base + alpha)⌋ pieces).2
        plot_elements :=
          ⟨SegKind.margin, 0, base + alpha, base + alpha⟩ ::
            (pieceSegs (base + alpha)
              (f ⌊total - 2 * (base + alpha)⌋ pieces).2 ++
              [⟨SegKind.margin,
                (base + alpha) +
                  (((f ⌊total - 2 * (base + alpha)⌋ pieces).2.sum : Nat) : ℚ),
                total,
                (base + alpha) + (total - 2 * (base + alpha) -
                  ((f ⌊total - 2 * (base + alpha)⌋ pieces).1 : ℚ))⟩]) } := by
  have hm : (0 : ℚ) ≤ base + alpha := by linarith
  have hR0 : (0 : ℚ) ≤ (base + alpha) + (total - 2 * (base + alpha) -
      ((f ⌊total - 2 * (base + alpha)⌋ pieces).1 : ℚ)) := by linarith
  have hmaxL : max (0 : ℚ) (base + alpha) = base + alpha := max_eq_right hm
  have hmaxR : max (0 : ℚ) ((base + alpha) + (total - 2 * (base + alpha) -
      ((f ⌊total - 2 * (base + alpha)⌋ pieces).1 : ℚ))) =
      (base + alpha) + (total - 2 * (base + alpha) -
        ((f ⌊total - 2 * (base + alpha)⌋ pieces).1 : ℚ)) :=
    max_eq_right hR0
  have hctot : (base + alpha) + ((f ⌊total - 2 * (base + alpha)⌋ pieces).1 : ℚ) +
      ((base + alpha) + (total - 2 * (base + alpha) -
        ((f ⌊total - 2 * (base + alpha)⌋ pieces).1 : ℚ))) - total = 0 := by
    ring
  simp only [calculate_single_strategy_layout]
  rw [if_neg (not_lt.mpr husable), hmaxL, hmaxR, hctot]
  rw [if_neg (by rw [abs_zero]; norm_num)]

theorem contiguousFrom_pieceSegs_append (tail : List Segment) :
    ∀ (l : List Nat) (pos : ℚ), contiguousFrom (pos + (l.sum : ℚ)) tail →
      contiguousFrom pos (pieceSegs pos l ++ tail)
  | [], pos, h => by simpa using h
  | p :: ps, pos, h => by
    refine ⟨rfl, ?_⟩
    refine contiguousFrom_pieceSegs_append tail ps (pos + p) ?_
    have he : (((p :: ps).sum : Nat) : ℚ) = (p : ℚ) + ((ps.sum : Nat) : ℚ) := by
      rw [List.sum_cons, Nat.cast_add]
    rw [he, ← add_assoc] at h
    exact h

theorem pieceSegs_map_length :
    ∀ (l : List Nat) (pos : ℚ),
      ((pieceSegs pos l).map Segment.length).sum = ((l.sum : Nat) : ℚ)
  | [], pos => by simp [pieceSegs]
  | p :: ps, pos => by
    simp only [pieceSegs, List.map_cons, List.sum_cons,
      pieceSegs_map_length ps (pos + p)]
    exact (Nat.cast_add _ _).symm

theorem contiguous_layout_segs (L R total : ℚ) (combo : List Nat) :
    contiguousFrom 0 (⟨SegKind.margin, 0, L, L⟩ ::
      (pieceSegs L combo ++
        [⟨SegKind.margin, L + ((combo.sum : Nat) : ℚ), total, R⟩])) := by
  refine ⟨rfl, ?_⟩
  exact contiguousFrom_pieceSegs_append _ combo L ⟨rfl, trivial⟩

/-- C5: a success layout emits the left margin starting at 0, one segment
per combination element with contiguous coordinates, and a right margin
ending exactly at `total_length`, and the segment lengths sum to
`total_length`. -/
theorem layout_success_segments (f : Int → List Nat → Nat × List Nat)
    (total : ℚ) (pieces : List Nat) (base alpha : ℚ) (method : DistMethod)
    (res : LayoutResult)
    (hres : res = calculate_single_strategy_layout f total pieces base alpha method)
    (husable : 0 ≤ total - 2 * (base + alpha))
    (hbase : 0 ≤ base) (halpha : 0 ≤ alpha)
    (hsum : (f ⌊total - 2 * (base + alpha)⌋ pieces).2.sum =
      (f ⌊total - 2 * (base + alpha)⌋ pieces).1)
    (hle : ((f ⌊total - 2 * (base + alpha)⌋ pieces).1 : ℚ) ≤
      total - 2 * (base + alpha)) :
    res.status = LayoutStatus.success ∧
    res.plot_elements =
      ⟨SegKind.margin, 0, res.final_left_margin, res.final_left_margin⟩ ::
        (pieceSegs res.final_left_margin res.selected_pieces_combination ++
          [⟨SegKind.margin,
            res.final_left_margin + ((res.selected_pieces_combination.sum : Nat) : ℚ),
            total, res.final_right_margin⟩]) ∧
    contiguousFrom 0 res.plot_elements ∧
    (res.plot_elements.map Segment.length).sum = total := by
  subst hres
  cases method with
  | even =>
    rw [layout_success_eq_even f total pieces base alpha husable hbase halpha hle]
    refine ⟨rfl, rfl, contiguous_layout_segs _ _ _ _, ?_⟩
    simp only [List.map_cons, List.map_append, List.map_nil, List.sum_cons,
      List.sum_append, List.sum_nil, pieceSegs_map_length]
    rw [hsum]
    ring
  | none_min =>
    rw [layout_success_eq_none f total pieces base alpha husable hbase halpha hle]
    refine ⟨rfl, rfl, contiguous_layout_segs _ _ _ _, ?_⟩
    simp only [List.map_cons, List.map_append, List.map_nil, List.sum_cons,
      List.sum_append, List.sum_nil, pieceSegs_map_length]
    rw [hsum]
    ring

/-! Evaluation facts for the concrete layout inputs used by the witnesses
(`Rat` arithmetic is `@[irreducible]`, so these are proved once here and
referenced as explicit terms). -/

theorem witness_usable_eq : ((20 : ℚ) - 2 * (1 + 0)) = 18 := by norm_num

theorem witness_husable : (0 : ℚ) ≤ 20 - 2 * (1 + 0) := by norm_num

theorem witness_hbase : (0 : ℚ) ≤ 1 := by norm_num

theorem witness_halpha : (0 : ℚ) ≤ 0 := le_refl 0

theorem witness_greedy_eval :
    optimize_greedy_largest_first ⌊(20 : ℚ) - 2 * (1 + 0)⌋ [5, 4] =
      (15, [5, 5, 5]) := by
  rw [witness_usable_eq, show ⌊(18 : ℚ)⌋ = (18 : Int) from rfl]
  decide

theorem witness_greedy_sum :
    (optimize_greedy_largest_first ⌊(20 : ℚ) - 2 * (1 + 0)⌋ [5, 4]).2.sum =
      (optimize_greedy_largest_first ⌊(20 : ℚ) - 2 * (1 + 0)⌋ [5, 4]).1 := by
  rw [witness_greedy_eval]
  decide

theorem witness_greedy_le :
    ((optimize_greedy_largest_first ⌊(20 : ℚ) - 2 * (1 + 0)⌋ [5, 4]).1 : ℚ) ≤
      20 - 2 * (1 + 0) := by
  rw [witness_greedy_eval, witness_usable_eq]
  norm_num

theorem witness_overflow : (500 : ℚ) - 2 * (300 + 150) < 0 := by norm_num

/-- witness for C5: greedy selector, total 20, catalog `[5, 4]`,
base margin 1, alpha 0, even distribution. -/
theorem layout_success_segments_witness :
    ((0 : ℚ) ≤ 20 - 2 * (1 + 0)) ∧ ((0 : ℚ) ≤ 1) ∧ ((0 : ℚ) ≤ 0) ∧
    ((optimize_greedy_largest_first ⌊(20 : ℚ) - 2 * (1 + 0)⌋ [5, 4]).2.sum =
      (optimize_greedy_largest_first ⌊(20 : ℚ) - 2 * (1 + 0)⌋ [5, 4]).1) ∧
    (((optimize_greedy_largest_first ⌊(20 : ℚ) - 2 * (1 + 0)⌋ [5, 4]).1 : ℚ) ≤
      20 - 2 * (1 + 0)) ∧
    ((calculate_single_strategy_layout optimize_greedy_largest_first 20 [5, 4]
        1 0 DistMethod.even).status = LayoutStatus.success ∧
      (calculate_single_strategy_layout optimize_greedy_largest_first 20 [5, 4]
          1 0 DistMethod.even).plot_elements =
        ⟨SegKind.margin, 0,
          (calculate_single_strategy_layout optimize_greedy_largest_first 20
            [5, 4] 1 0 DistMethod.even).final_left_margin,
          (calculate_single_strategy_layout optimize_greedy_largest_first 20
            [5, 4] 1 0 DistMethod.even).final_left_margin⟩ ::
          (pieceSegs
            (calculate_single_strategy_layout optimize_greedy_largest_first 20
              [5, 4] 1 0 DistMethod.even).final_left_margin
            (calculate_single_strategy_layout optimize_greedy_largest_first 20
              [5, 4] 1 0 DistMethod.even).selected_pieces_combination ++
            [⟨SegKind.margin,
              (calculate_single_strategy_layout optimize_greedy_largest_first 20
                [5, 4] 1 0 DistMethod.even).final_left_margin +
                (((calculate_single_strategy_layout optimize_greedy_largest_first
                  20 [5, 4] 1 0
                  DistMethod.even).selected_pieces_combination.sum : Nat) : ℚ),
              20,
              (calculate_single_strategy_layout optimize_greedy_largest_first 20
                [5, 4] 1 0 DistMethod.even).final_right_margin⟩]) ∧
      contiguousFrom 0
        (calculate_single_strategy_layout optimize_greedy_largest_first 20
          [5, 4] 1 0 DistMethod.even).plot_elements ∧
      ((calculate_single_strategy_layout optimize_greedy_largest_first 20
        [5, 4] 1 0 DistMethod.even).plot_elements.map Segment.length).sum = 20) :=
  ⟨witness_husable, witness_hbase, witness_halpha, witness_greedy_sum,
    witness_greedy_le,
    layout_success_segments optimize_greedy_largest_first 20 [5, 4] 1 0
      DistMethod.even _ rfl witness_husable witness_hbase witness_halpha
      witness_greedy_sum witness_greedy_le⟩

/-- C6: for a success layout, `internal_waste = usable_capacity - filled_sum`;
the even policy adds half the waste to each margin, the right-only policy
keeps the left margin at the effective margin and adds all waste to the
right margin. -/
theorem layout_margin_distribution (f : Int → List Nat → Nat × List Nat)
    (total : ℚ) (pieces : List Nat) (base alpha : ℚ)
    (res_even res_none : LayoutResult)
    (hres_even : res_even =
      calculate_single_strategy_layout f total pieces base alpha DistMethod.even)
    (hres_none : res_none =
      calculate_single_strategy_layout f total pieces base alpha DistMethod.none_min)
    (husable : 0 ≤ total - 2 * (base + alpha))
    (hbase : 0 ≤ base) (halpha : 0 ≤ alpha)
    (hle : ((f ⌊total - 2 * (base + alpha)⌋ pieces).1 : ℚ) ≤
      total - 2 * (base + alpha)) :
    res_even.internal_alpha_waste = total - 2 * (base + alpha) -
      ((f ⌊total - 2 * (base + alpha)⌋ pieces).1 : ℚ) ∧
    res_even.final_left_margin =
      (base + alpha) + res_even.internal_alpha_waste / 2 ∧
    res_even.final_right_margin =
      (base + alpha) + res_even.internal_alpha_waste / 2 ∧
    res_none.internal_alpha_waste = total - 2 * (base + alpha) -
      ((f ⌊total - 2 * (base + alpha)⌋ pieces).1 : ℚ) ∧
    res_none.final_left_margin = base + alpha ∧
    res_none.final_right_margin =
      (base + alpha) + res_none.internal_alpha_waste := by
  subst hres_even hres_none
  rw [layout_success_eq_even f total pieces base alpha husable hbase halpha hle,
    layout_success_eq_none f total pieces base alpha husable hbase halpha hle]
  exact ⟨rfl, rfl, rfl, rfl, rfl, rfl⟩

/-- witness for C6: greedy selector, total 20, catalog `[5, 4]`,
base margin 1, alpha 0. -/
theorem layout_margin_distribution_witness :
    ((0 : ℚ) ≤ 20 - 2 * (1 + 0)) ∧ ((0 : ℚ) ≤ 1) ∧ ((0 : ℚ) ≤ 0) ∧
    (((optimize_greedy_largest_first ⌊(20 : ℚ) - 2 * (1 + 0)⌋ [5, 4]).1 : ℚ) ≤
      20 - 2 * (1 + 0)) ∧
    ((calculate_single_strategy_layout optimize_greedy_largest_first 20 [5, 4]
        1 0 DistMethod.even).internal_alpha_waste = 20 - 2 * (1 + 0) -
      ((optimize_greedy_largest_first ⌊(20 : ℚ) - 2 * (1 + 0)⌋ [5, 4]).1 : ℚ) ∧
      (calculate_single_strategy_layout optimize_greedy_largest_first 20 [5, 4]
          1 0 DistMethod.even).final_left_margin =
        (1 + 0) + (calculate_single_strategy_layout optimize_greedy_largest_first
          20 [5, 4] 1 0 DistMethod.even).internal_alpha_waste / 2 ∧
      (calculate_single_strategy_layout optimize_greedy_largest_first 20 [5, 4]
          1 0 DistMethod.even).final_right_margin =
        (1 + 0) + (calculate_single_strategy_layout optimize_greedy_largest_first
          20 [5, 4] 1 0 DistMethod.even).internal_alpha_waste / 2 ∧
      (calculate_single_strategy_layout optimize_greedy_largest_first 20 [5, 4]
          1 0 DistMethod.none_min).internal_alpha_waste = 20 - 2 * (1 + 0) -
        ((optimize_greedy_largest_first ⌊(20 : ℚ) - 2 * (1 + 0)⌋ [5, 4]).1 : ℚ) ∧
      (calculate_single_strategy_layout optimize_greedy_largest_first 20 [5, 4]
          1 0 DistMethod.none_min).final_left_margin = 1 + 0 ∧
      (calculate_single_strategy_layout optimize_greedy_largest_first 20 [5, 4]
          1 0 DistMethod.none_min).final_right_margin =
        (1 + 0) + (calculate_single_strategy_layout optimize_greedy_largest_first
          20 [5, 4] 1 0 DistMethod.none_min).internal_alpha_waste) :=
  ⟨witness_husable, witness_hbase, witness_halpha, witness_greedy_le,
    layout_margin_distribution optimize_greedy_largest_first 20 [5, 4] 1 0 _ _
      rfl rfl witness_husable witness_hbase witness_halpha witness_greedy_le⟩

/-- C7: when the requested margins exceed the total length
(`usable_capacity < 0`) the layout returns an error result whose segments
are the two requested margins and a boundary marker at `total_length`, and
the result does not depend on the piece selector at all. -/
theorem layout_margin_overflow (f : Int → List Nat → Nat × List Nat)
    (total : ℚ) (pieces : List Nat) (base alpha : ℚ) (method : DistMethod)
    (h : total - 2 * (base + alpha) < 0) :
    (calculate_single_strategy_layout f total pieces base alpha method).status =
      LayoutStatus.error ∧
    (calculate_single_strategy_layout f total pieces base alpha method).plot_elements =
      [⟨SegKind.margin, 0, base + alpha, base + alpha⟩,
        ⟨SegKind.margin, total - (base + alpha), total, base + alpha⟩,
        ⟨SegKind.limit_line, 0, total, total⟩] ∧
    ∀ g, calculate_single_strategy_layout g total pieces base alpha method =
      calculate_single_strategy_layout f total pieces base alpha method := by
  refine ⟨?_, ?_, fun g => ?_⟩
  · simp only [calculate_single_strategy_layout]
    rw [if_pos h]
  · simp only [calculate_single_strategy_layout]
    rw [if_pos h]
  · simp only [calculate_single_strategy_layout]
    rw [if_pos h, if_pos h]

/-- witness for C7: total 500, base margin 300, alpha 150
(`usable_capacity = -400`). -/
theorem layout_margin_overflow_witness :
    ((500 : ℚ) - 2 * (300 + 150) < 0) ∧
    ((calculate_single_strategy_layout optimize_greedy_largest_first 500 [5, 4]
        300 150 DistMethod.even).status = LayoutStatus.error ∧
      (calculate_single_strategy_layout optimize_greedy_largest_first 500 [5, 4]
          300 150 DistMethod.even).plot_elements =
        [⟨SegKind.margin, 0, 300 + 150, 300 + 150⟩,
          ⟨SegKind.margin, 500 - (300 + 150), 500, 300 + 150⟩,
          ⟨SegKind.limit_line, 0, 500, 500⟩] ∧
      ∀ g, calculate_single_strategy_layout g 500 [5, 4] 300 150 DistMethod.even =
        calculate_single_strategy_layout optimize_greedy_largest_first 500 [5, 4]
          300 150 DistMethod.even) :=
  ⟨witness_overflow,
    layout_margin_overflow optimize_greedy_largest_first 500 [5, 4] 300 150
      DistMethod.even witness_overflow⟩

/-- C10: on the margin-overflow error branch the numeric fields keep their
initial values (margins 0, waste 0, empty combination) even though the
emitted segments depict the requested margins of length
`base + alpha` (and the `total_length` marker). -/
theorem layout_error_fields_initial (f : Int → List Nat → Nat × List Nat)
    (total : ℚ) (pieces : List Nat) (base alpha : ℚ) (method : DistMethod)
    (h : total - 2 * (base + alpha) < 0) :
    (calculate_single_strategy_layout f total pieces base alpha method).final_left_margin = 0 ∧
    (calculate_single_strategy_layout f total pieces base alpha method).final_right_margin = 0 ∧
    (calculate_single_strategy_layout f total pieces base alpha method).internal_alpha_waste = 0 ∧
    (calculate_single_strategy_layout f total pieces base alpha method).selected_pieces_combination = [] ∧
    (calculate_single_strategy_layout f total pieces base alpha
      method).plot_elements.map Segment.length =
      [base + alpha, base + alpha, total] := by
  refine ⟨?_, ?_, ?_, ?_, ?_⟩ <;>
    (simp only [calculate_single_strategy_layout]; rw [if_pos h]; try rfl)

/-- witness for C10: total 500, base margin 300, alpha 150. -/
theorem layout_error_fields_initial_witness :
    ((500 : ℚ) - 2 * (300 + 150) < 0) ∧
    ((calculate_single_strategy_layout optimize_greedy_largest_first 500 [5, 4]
        300 150 DistMethod.none_min).final_left_margin = 0 ∧
      (calculate_single_strategy_layout optimize_greedy_largest_first 500 [5, 4]
        300 150 DistMethod.none_min).final_right_margin = 0 ∧
      (calculate_single_strategy_layout optimize_greedy_largest_first 500 [5, 4]
        300 150 DistMethod.none_min).internal_alpha_waste = 0 ∧
      (calculate_single_strategy_layout optimize_greedy_largest_first 500 [5, 4]
        300 150 DistMethod.none_min).selected_pieces_combination = [] ∧
      (calculate_single_strategy_layout optimize_greedy_largest_first 500 [5, 4]
        300 150 DistMethod.none_min).plot_elements.map Segment.length =
        [300 + 150, 300 + 150, 500]) :=
  ⟨witness_overflow,
    layout_error_fields_initial optimize_greedy_largest_first 500 [5, 4] 300 150
      DistMethod.none_min witness_overflow⟩

end Support
